import Mathlib

/-!
Verification of the scoring and run-comparison engine of the `rag-lifecycle-demo`
evaluation harness (`eval/run.mjs`, `eval/compare.mjs`, `eval/retrieval_adapter.mjs`,
`eval/retrieval_eval.mjs`).

JavaScript strings are embedded as `List Char` (Unicode scalar values).  The few
Unicode-table primitives the source uses are modelled at the level every claim
actually exercises and each such modelling decision is recorded in the doc
comment of the corresponding definition.
-/

set_option maxRecDepth 8000

namespace RagEval

/-- JavaScript strings modelled as lists of Unicode scalar values. -/
abbrev JStr := List Char

/-- Embed a Lean string literal into the list-of-characters model. -/
def s2l (s : String) : JStr := s.data

/-- The punctuation class `[.,;:!?]` used by the trailing-punctuation strip in
`normalizeAggressive` and by the wrapped regexes of `checkRegex`. -/
def isPunct (c : Char) : Bool :=
  c == '.' || c == ',' || c == ';' || c == ':' || c == '!' || c == '?'

/-- The JavaScript whitespace set: what `\s` matches and what
`String.prototype.trim` strips (space, tab, LF, VT, FF, CR, NBSP, Ogham space,
the U+2000–U+200A range, line/paragraph separators, NNBSP, MMSP, ideographic
space, BOM). -/
def isJsWs (c : Char) : Bool :=
  c == ' ' || c == '\t' || c == '\n' || c == '\r' ||
  c == Char.ofNat 0x0B || c == Char.ofNat 0x0C ||
  c == Char.ofNat 0xA0 || c == Char.ofNat 0x1680 ||
  (Char.ofNat 0x2000 ≤ c && c ≤ Char.ofNat 0x200A) ||
  c == Char.ofNat 0x2028 || c == Char.ofNat 0x2029 ||
  c == Char.ofNat 0x202F || c == Char.ofNat 0x205F ||
  c == Char.ofNat 0x3000 || c == Char.ofNat 0xFEFF

/-- The class `[^\S\r\n]`: whitespace other than CR and LF (the characters the
whitespace-collapse step rewrites). -/
def isCollapsible (c : Char) : Bool := isJsWs c && c != '\r' && c != '\n'

/-- Drop trailing characters satisfying `p`. -/
def dropTrailWhile (p : Char → Bool) (s : JStr) : JStr :=
  (s.reverse.dropWhile p).reverse

/-- `String.prototype.trim`. -/
def jsTrim (s : JStr) : JStr := dropTrailWhile isJsWs (s.dropWhile isJsWs)

/-- Worker for `collapseWs`; the flag records whether the previous character was
part of a collapsible-whitespace run already rewritten to one space. -/
def collapseWsAux : Bool → JStr → JStr
  | _, [] => []
  | prev, c :: rest =>
    if isCollapsible c then
      if prev then collapseWsAux true rest else ' ' :: collapseWsAux true rest
    else c :: collapseWsAux false rest

/-- `.replace(/[^\S\r\n]+/g, " ")`: every maximal run of non-CRLF whitespace
becomes a single space. -/
def collapseWs (s : JStr) : JStr := collapseWsAux false s

/-- `.replace(/[.,;:!?]+$/g, "")`: remove the maximal trailing run of
punctuation characters. -/
def stripTrailingPunct (s : JStr) : JStr := dropTrailWhile isPunct s

/-- The smart double quotes `“ ” „ ‟` rewritten by `.replace(/[“”„‟]/g, '"')`. -/
def smartDQ : List Char := [Char.ofNat 0x201C, Char.ofNat 0x201D, Char.ofNat 0x201E, Char.ofNat 0x201F]

/-- The smart single quotes `‘ ’ ‚ ‛` rewritten by `.replace(/[‘’‚‛]/g, "'")`. -/
def smartSQ : List Char := [Char.ofNat 0x2018, Char.ofNat 0x2019, Char.ofNat 0x201A, Char.ofNat 0x201B]

/-- The en/em dashes `– —` rewritten by `.replace(/[–—]/g, "-")`. -/
def dashChars : List Char := [Char.ofNat 0x2013, Char.ofNat 0x2014]

/-- `.replace(/[set]/g, r)` for a character class `set`: replace every
occurrence of a character of `set` by `r`. -/
def replAll (set : List Char) (r : Char) (s : JStr) : JStr :=
  s.map fun c => if set.contains c then r else c

/-- `String.prototype.normalize("NFKC")`: modelled as the identity map.  Every
character this development manipulates (ASCII, the smart quotes U+2018–U+201F,
the dashes U+2013/U+2014, JS whitespace) is NFKC-invariant, and none of the
claims under study depends on compatibility folding of other characters. -/
def nfkc (s : JStr) : JStr := s

/-- The case-mapping table of `String.prototype.toLowerCase`, modelled at the
ASCII level (`A`–`Z` ↦ `a`–`z`); the full Unicode simple-lowercase table is
not needed by any claim under study. -/
def lowerPairs : List (Char × Char) :=
  [('A', 'a'), ('B', 'b'), ('C', 'c'), ('D', 'd'), ('E', 'e'), ('F', 'f'),
   ('G', 'g'), ('H', 'h'), ('I', 'i'), ('J', 'j'), ('K', 'k'), ('L', 'l'),
   ('M', 'm'), ('N', 'n'), ('O', 'o'), ('P', 'p'), ('Q', 'q'), ('R', 'r'),
   ('S', 's'), ('T', 't'), ('U', 'u'), ('V', 'v'), ('W', 'w'), ('X', 'x'),
   ('Y', 'y'), ('Z', 'z')]

/-- One character of `String.prototype.toLowerCase` (see `lowerPairs`);
characters outside the table are fixed. -/
def lowerChar (c : Char) : Char :=
  match lowerPairs.find? (fun p => p.1 == c) with
  | some p => p.2
  | none => c

/-- `String.prototype.toLowerCase` (character-wise, see `lowerChar`). -/
def jsToLower (s : JStr) : JStr := s.map lowerChar

/-- `normalizeAggressive` from `eval/run.mjs`: `(s || "")`, NFKC fold, smart
double quotes to `"`, smart single quotes to `'`, en/em dashes to `-`, collapse
of non-CRLF whitespace runs to one space, strip of the trailing punctuation
run, lower-case, trim — in exactly the source's chain order. -/
def normalizeAggressive (s : Option JStr) : JStr :=
  jsTrim (jsToLower (stripTrailingPunct (collapseWs
    (replAll dashChars '-' (replAll smartSQ '\'' (replAll smartDQ '"' (nfkc (s.getD []))))))))

/-- `hay.startsWith(needle)` on the list model. -/
def startsWithL : JStr → JStr → Bool
  | _, [] => true
  | [], _ :: _ => false
  | a :: as, b :: bs => a == b && startsWithL as bs

/-- `String.prototype.includes`: `needle` occurs contiguously in `hay`. -/
def jsIncludes (hay needle : JStr) : Bool :=
  (List.range (hay.length + 1)).any fun i => startsWithL (hay.drop i) needle

/-- `checkContains` from `eval/run.mjs`. -/
def checkContains (out reference : Option JStr) : Bool :=
  jsIncludes (normalizeAggressive out) (normalizeAggressive reference)

/-- `checkDontKnow` from `eval/run.mjs`. -/
def checkDontKnow (out : Option JStr) : Bool :=
  normalizeAggressive out == normalizeAggressive (some (s2l "I don't know"))

/-! ## A JS-regex engine (the subset `checkRegex` exercises)

`checkRegex` compiles user patterns with `new RegExp(p, "iu")`.  The engine
below models the `u`-flag grammar fragment the harness can meet: literals,
`.`, character classes with ranges and the predefined classes `\d \w \s`
(and negations), the assertions `^ $ \b \B`, groups `(...)`/`(?:...)`,
alternation `|`, and the quantifiers `* + ?`.  `u`-mode strictness is kept:
stray `) ] { } * + ?`, quantified assertions, bad escapes and unterminated
groups are syntax errors (`none`). -/

/-- `[0-9]`, the regex class `\d`. -/
def isDigitC (c : Char) : Bool := '0' ≤ c && c ≤ '9'

/-- `[A-Za-z0-9_]`, the regex class `\w` (also the `\b` word test). -/
def isWordC (c : Char) : Bool :=
  ('a' ≤ c && c ≤ 'z') || ('A' ≤ c && c ≤ 'Z') || isDigitC c || c == '_'

/-- ECMAScript line terminators (what `.` refuses to match). -/
def isLineTerm (c : Char) : Bool :=
  c == '\n' || c == '\r' || c == Char.ofNat 0x2028 || c == Char.ofNat 0x2029

/-- One item of a bracket character class. -/
inductive CItem where
  | ch (c : Char)
  | rng (lo hi : Char)
  | pD | pW | pS | pND | pNW | pNS
deriving DecidableEq, Repr

/-- Abstract syntax of the modelled regex fragment. -/
inductive RTerm where
  | eps
  | dot
  | lit (c : Char)
  | cls (neg : Bool) (items : List CItem)
  | aStart | aEnd | wordB | nWordB
  | seq (a b : RTerm)
  | alt (a b : RTerm)
  | star (a : RTerm)
  | plus (a : RTerm)
  | opt (a : RTerm)
deriving DecidableEq, Repr

/-- Case-insensitive (`i` flag) character comparison; canonicalisation is
modelled by `lowerChar` (ASCII case fold, see there). -/
def chEq (ic : Bool) (c d : Char) : Bool :=
  if ic then lowerChar c == lowerChar d else c == d

/-- Does character `c` match one class item? -/
def citemMatch (ic : Bool) (c : Char) : CItem → Bool
  | .ch d => chEq ic c d
  | .rng lo hi =>
    (lo ≤ c && c ≤ hi) || (ic && lo ≤ lowerChar c && lowerChar c ≤ hi)
  | .pD => isDigitC c
  | .pW => isWordC c
  | .pS => isJsWs c
  | .pND => !isDigitC c
  | .pNW => !isWordC c
  | .pNS => !isJsWs c

/-- Does character `c` match the class `[items]` / `[^items]`? -/
def clsMatch (ic : Bool) (neg : Bool) (items : List CItem) (c : Char) : Bool :=
  neg != items.any (citemMatch ic c)

/-- The character at position `i`, if any. -/
def charAt? (input : JStr) (i : Nat) : Option Char := (input.drop i).head?

/-- Is position `pos` a `\b` word boundary of `input`? -/
def atBoundary (input : JStr) (pos : Nat) : Bool :=
  let prev := if pos == 0 then false else
    match charAt? input (pos - 1) with | some c => isWordC c | none => false
  let cur := match charAt? input pos with | some c => isWordC c | none => false
  prev != cur

/-- Iterate a one-step end-position function for `star`: all positions
reachable from `pos` by zero or more strictly advancing steps of `f` (fuel
bounds the iteration; `input.length + 1` always suffices since positions
strictly increase). -/
def starIter (f : Nat → List Nat) : Nat → Nat → List Nat
  | 0, pos => [pos]
  | fuel + 1, pos =>
    pos :: (((f pos).filter fun q => pos < q).flatMap fun q => starIter f fuel q)

/-- All end positions of a match of `r` that starts at position `pos` of
`input` (backtracking-complete, so `rtest` below is greediness-agnostic). -/
def endPos (ic : Bool) (input : JStr) : RTerm → Nat → List Nat
  | .eps, pos => [pos]
  | .dot, pos =>
    match charAt? input pos with
    | some c => if isLineTerm c then [] else [pos + 1]
    | none => []
  | .lit d, pos =>
    match charAt? input pos with
    | some c => if chEq ic c d then [pos + 1] else []
    | none => []
  | .cls neg items, pos =>
    match charAt? input pos with
    | some c => if clsMatch ic neg items c then [pos + 1] else []
    | none => []
  | .aStart, pos => if pos == 0 then [pos] else []
  | .aEnd, pos => if pos == input.length then [pos] else []
  | .wordB, pos => if atBoundary input pos then [pos] else []
  | .nWordB, pos => if atBoundary input pos then [] else [pos]
  | .seq a b, pos => (endPos ic input a pos).flatMap (endPos ic input b)
  | .alt a b, pos => endPos ic input a pos ++ endPos ic input b pos
  | .star a, pos => starIter (endPos ic input a) (input.length + 1) pos
  | .plus a, pos =>
    (endPos ic input a pos).flatMap (starIter (endPos ic input a) (input.length + 1))
  | .opt a, pos => pos :: endPos ic input a pos

/-- `RegExp.prototype.test` (no `g` flag): some match starts somewhere. -/
def rtest (ic : Bool) (r : RTerm) (input : JStr) : Bool :=
  (List.range (input.length + 1)).any fun start => !(endPos ic input r start).isEmpty

/-- Is `c` one of the regex syntax characters that admit an identity escape
in `u`-mode (plus `/`)? -/
def isSyntaxChar (c : Char) : Bool :=
  c == '^' || c == '$' || c == '\\' || c == '.' || c == '*' || c == '+' ||
  c == '?' || c == '(' || c == ')' || c == '[' || c == ']' || c == '{' ||
  c == '}' || c == '|' || c == '/'

/-- Decode an escape `\c` in atom position. -/
def escAtom (c : Char) : Option RTerm :=
  if c == 'd' then some (.cls false [.pD])
  else if c == 'D' then some (.cls false [.pND])
  else if c == 'w' then some (.cls false [.pW])
  else if c == 'W' then some (.cls false [.pNW])
  else if c == 's' then some (.cls false [.pS])
  else if c == 'S' then some (.cls false [.pNS])
  else if c == 'b' then some .wordB
  else if c == 'B' then some .nWordB
  else if c == 'n' then some (.lit '\n')
  else if c == 'r' then some (.lit '\r')
  else if c == 't' then some (.lit '\t')
  else if c == 'f' then some (.lit (Char.ofNat 0x0C))
  else if c == 'v' then some (.lit (Char.ofNat 0x0B))
  else if c == '0' then some (.lit (Char.ofNat 0x00))
  else if isSyntaxChar c then some (.lit c)
  else none

/-- Decode an escape `\c` inside a bracket class; the `Bool` says whether the
item is a single character (hence eligible as a range endpoint). -/
def escCls (c : Char) : Option (CItem × Bool) :=
  if c == 'd' then some (.pD, false)
  else if c == 'D' then some (.pND, false)
  else if c == 'w' then some (.pW, false)
  else if c == 'W' then some (.pNW, false)
  else if c == 's' then some (.pS, false)
  else if c == 'S' then some (.pNS, false)
  else if c == 'b' then some (.ch (Char.ofNat 0x08), true)
  else if c == 'n' then some (.ch '\n', true)
  else if c == 'r' then some (.ch '\r', true)
  else if c == 't' then some (.ch '\t', true)
  else if c == 'f' then some (.ch (Char.ofNat 0x0C), true)
  else if c == 'v' then some (.ch (Char.ofNat 0x0B), true)
  else if c == '0' then some (.ch (Char.ofNat 0x00), true)
  else if c == '-' then some (.ch '-', true)
  else if isSyntaxChar c then some (.ch c, true)
  else none

/-- One class atom (a literal character or an escape). -/
def pCls1 : List Char → Option (CItem × Bool × List Char)
  | '\\' :: e :: rest =>
    match escCls e with
    | some (it, single) => some (it, single, rest)
    | none => none
  | '\\' :: [] => none
  | ']' :: _ => none
  | c :: rest => some (.ch c, true, rest)
  | [] => none

/-- The items of a bracket class up to the closing `]` (with `a-b` ranges;
reversed ranges and ranges against class escapes are `u`-mode errors). -/
def pClsItems : Nat → List Char → Option (List CItem × List Char)
  | 0, _ => none
  | _, ']' :: rest => some ([], rest)
  | fuel + 1, s => do
    let (it1, single1, rest1) ← pCls1 s
    match single1, rest1 with
    | true, '-' :: r2 =>
      match r2 with
      | ']' :: _ =>
        let (its, rest') ← pClsItems fuel rest1
        pure (it1 :: its, rest')
      | _ => do
        let (it2, single2, rest3) ← pCls1 r2
        match single2, it1, it2 with
        | true, .ch a, .ch b =>
          if a ≤ b then do
            let (its, rest') ← pClsItems fuel rest3
            pure (CItem.rng a b :: its, rest')
          else none
        | _, _, _ => none
    | _, _ => do
      let (its, rest') ← pClsItems fuel rest1
      pure (it1 :: its, rest')

/-- Is the term a zero-width assertion (not quantifiable in `u`-mode)? -/
def isAssertion : RTerm → Bool
  | .aStart | .aEnd | .wordB | .nWordB => true
  | _ => false

mutual

/-- An alternative: a sequence, possibly followed by `| alternative`. -/
def pAlt : Nat → List Char → Option (RTerm × List Char)
  | 0, _ => none
  | fuel + 1, s => do
    let (t, rest) ← pSeq fuel s
    match rest with
    | '|' :: rest2 => do
      let (t2, rest3) ← pAlt fuel rest2
      pure (RTerm.alt t t2, rest3)
    | _ => pure (t, rest)

/-- A possibly empty sequence of quantified atoms. -/
def pSeq : Nat → List Char → Option (RTerm × List Char)
  | 0, _ => none
  | fuel + 1, s =>
    match s with
    | [] => some (RTerm.eps, [])
    | '|' :: _ => some (RTerm.eps, s)
    | ')' :: _ => some (RTerm.eps, s)
    | _ => do
      let (t, rest) ← pAtomQ fuel s
      let (t2, rest2) ← pSeq fuel rest
      pure (RTerm.seq t t2, rest2)

/-- An atom with its optional `* + ?` quantifier (`{` quantifiers are outside
the modelled fragment and rejected, as bare `{` is in `u`-mode). -/
def pAtomQ : Nat → List Char → Option (RTerm × List Char)
  | 0, _ => none
  | fuel + 1, s => do
    let (a, rest) ← pAtom fuel s
    match rest with
    | '*' :: r => if isAssertion a then none else pure (RTerm.star a, r)
    | '+' :: r => if isAssertion a then none else pure (RTerm.plus a, r)
    | '?' :: r => if isAssertion a then none else pure (RTerm.opt a, r)
    | '{' :: _ => none
    | _ => pure (a, rest)

/-- A single atom. -/
def pAtom : Nat → List Char → Option (RTerm × List Char)
  | 0, _ => none
  | fuel + 1, s =>
    match s with
    | '(' :: '?' :: ':' :: rest => do
      let (t, rest2) ← pAlt fuel rest
      match rest2 with
      | ')' :: r3 => pure (t, r3)
      | _ => none
    | '(' :: '?' :: _ => none
    | '(' :: rest => do
      let (t, rest2) ← pAlt fuel rest
      match rest2 with
      | ')' :: r3 => pure (t, r3)
      | _ => none
    | '[' :: '^' :: rest => do
      let (items, rest') ← pClsItems (rest.length + 1) rest
      pure (RTerm.cls true items, rest')
    | '[' :: rest => do
      let (items, rest') ← pClsItems (rest.length + 1) rest
      pure (RTerm.cls false items, rest')
    | '\\' :: e :: rest => do
      let a ← escAtom e
      pure (a, rest)
    | '\\' :: [] => none
    | '.' :: rest => pure (RTerm.dot, rest)
    | '^' :: rest => pure (RTerm.aStart, rest)
    | '$' :: rest => pure (RTerm.aEnd, rest)
    | c :: rest =>
      if c == ')' || c == '|' || c == '*' || c == '+' || c == '?' ||
         c == ']' || c == '{' || c == '}' then none
      else pure (RTerm.lit c, rest)
    | [] => none

end

/-- `new RegExp(pat, "iu")` compilation: `none` models the `SyntaxError`
caught by `checkRegex`'s `try`/`catch`. -/
def parseRegex (pat : JStr) : Option RTerm :=
  match pAlt (4 * pat.length + 8) pat with
  | some (r, []) => some r
  | _ => none

/-! ## `checkRegex` from `eval/run.mjs` -/

/-- The inner `normalizeForRegex` of `checkRegex`: like `normalizeAggressive`
but with no trailing-punctuation strip and no lower-casing. -/
def normalizeForRegex (s : Option JStr) : JStr :=
  jsTrim (collapseWs
    (replAll dashChars '-' (replAll smartSQ '\'' (replAll smartDQ '"' (nfkc (s.getD []))))))

/-- `/^\s*\.\*/.test(raw)`: the pattern starts with `.*` after optional
whitespace (maximal whitespace munch is equivalent since `.` is not `\s`). -/
def leadingWildcard (raw : JStr) : Bool :=
  startsWithL (raw.dropWhile isJsWs) (s2l ".*")

/-- `/\.\*\s*$/.test(raw)`: the pattern ends with `.*` before optional
whitespace. -/
def trailingWildcard (raw : JStr) : Bool :=
  startsWithL (raw.reverse.dropWhile isJsWs) (s2l "*.")

/-- `hasWildcardEdges` from `checkRegex`. -/
def hasWildcardEdges (raw : JStr) : Bool := leadingWildcard raw && trailingWildcard raw

/-- `/\^|\$/.test(raw)`: the pattern contains an explicit `^` or `$` anywhere. -/
def hasAnchorChar (raw : JStr) : Bool := raw.any fun c => c == '^' || c == '$'

/-- `raw.replace(/^\^/, "").replace(/\$$/, "")`: drop one leading `^`, then
one trailing `$`. -/
def stripAnchors (raw : JStr) : JStr :=
  let r1 := match raw with | '^' :: rest => rest | _ => raw
  match r1.getLast? with
  | some '$' => r1.dropLast
  | _ => r1

/-- The tier-2 wrapper `` `^(?:${core})\s*[.,;:!?]?$` ``. -/
def wrapExactish (core : JStr) : JStr :=
  s2l "^(?:" ++ core ++ s2l ")\\s*[.,;:!?]?$"

/-- The tier-3 wrapper `` `\b(?:${core})\b\s*[.,;:!?]?$` ``. -/
def wrapTailBounded (core : JStr) : JStr :=
  s2l "\\b(?:" ++ core ++ s2l ")\\b\\s*[.,;:!?]?$"

/-- A verdict `{ pass, error }` as produced by `checkRegex`. -/
structure CheckResult where
  pass : Bool
  error : Option String
deriving DecidableEq, Repr

/-- The part of `checkRegex`'s `try` block after the tier-1 attempt: strip
anchors, try the exact-ish wrapper, then the tail-bounded wrapper; a regex
compile failure anywhere is caught as `BAD_REGEX`. -/
def checkRegexFallback (raw normalizedOut : JStr) : CheckResult :=
  let core := stripAnchors raw
  match parseRegex (wrapExactish core) with
  | none => ⟨false, some "BAD_REGEX"⟩
  | some re =>
    if rtest true re normalizedOut then ⟨true, none⟩
    else
      match parseRegex (wrapTailBounded core) with
      | none => ⟨false, some "BAD_REGEX"⟩
      | some re2 => if rtest true re2 normalizedOut then ⟨true, none⟩ else ⟨false, none⟩

/-- `checkRegex` from `eval/run.mjs`.  `new RegExp(p, "iu")` is modelled by
`parseRegex` (where `none` is the `SyntaxError` the `catch` turns into
`BAD_REGEX`) and `rtest true` (case-insensitive unanchored search). -/
def checkRegex (out : Option JStr) (pat : JStr) : CheckResult :=
  let normalizedOut := normalizeForRegex (some (jsTrim (out.getD [])))
  let raw := pat
  if hasWildcardEdges raw || hasAnchorChar raw then
    match parseRegex raw with
    | none => ⟨false, some "BAD_REGEX"⟩
    | some re =>
      if rtest true re normalizedOut then ⟨true, none⟩
      else checkRegexFallback raw normalizedOut
  else checkRegexFallback raw normalizedOut

/-- The tier-1 eligibility test of `checkRegex`: the pattern has explicit
leading and trailing `.*` wildcards, or contains an explicit `^`/`$`. -/
def tierOneEligible (raw : JStr) : Bool := hasWildcardEdges raw || hasAnchorChar raw

/-- Tier 1: the pattern as authored, tested (case-insensitively) against the
lightly-normalized output; an uncompilable pattern matches nothing here. -/
def tierOneMatch (raw out : JStr) : Bool :=
  match parseRegex raw with
  | some re => rtest true re out
  | none => false

/-- Tier 2: the anchor-stripped pattern wrapped as `^(?:core)\s*[.,;:!?]?$`. -/
def tierTwoMatch (raw out : JStr) : Bool :=
  match parseRegex (wrapExactish (stripAnchors raw)) with
  | some re => rtest true re out
  | none => false

/-- Tier 3: the anchor-stripped pattern wrapped as `\b(?:core)\b\s*[.,;:!?]?$`. -/
def tierThreeMatch (raw out : JStr) : Bool :=
  match parseRegex (wrapTailBounded (stripAnchors raw)) with
  | some re => rtest true re out
  | none => false

/-! ## The run comparator (`eval/compare.mjs`) -/

/-- A per-case record of an archived generation run (the `items` entries
written by `eval/run.mjs`; the comparator reads `id`, `pass` and `error`). -/
structure RunItem where
  id : String
  pass : Bool
  latency_ms : Nat
  error : Option String
  actual : JStr
deriving DecidableEq, Repr

/-- JS truthiness of the `error` field: `null` is falsy and the machine codes
(`"BAD_REGEX"`, `"PIPELINE_ERROR"`) are nonempty strings, hence truthy. -/
def errTruthy (e : Option String) : Bool := e.isSome

/-- `new Map(j.items.map(i => [i.id, i])).get(id)`: the `Map` constructor
lets later duplicate keys overwrite earlier ones, so lookup finds the last
item carrying the id. -/
def itemsGet (items : List RunItem) (id : String) : Option RunItem :=
  items.reverse.find? fun i => i.id == id

/-- The four id lists accumulated by the classification loop. -/
structure ComparisonResult where
  regressions : List String
  improvements : List String
  errorsFixed : List String
  errorsNew : List String
deriving DecidableEq, Repr

/-- `Set` insertion-order semantics: keep the first occurrence of each
element, drop later duplicates. -/
def dedupFirst (seen : List String) : List String → List String
  | [] => []
  | x :: xs =>
    if seen.contains x then dedupFirst seen xs
    else x :: dedupFirst (x :: seen) xs

/-- `new Set([...A.items.keys(), ...B.items.keys()])` as an ordered list. -/
def unionIds (A B : List RunItem) : List String :=
  dedupFirst [] (A.map (·.id) ++ B.map (·.id))

/-- `!!x.pass && !x.error`. -/
def passClean (x : RunItem) : Bool := x.pass && !(errTruthy x.error)

/-- The body of `for (const id of ids)` in `eval/compare.mjs`: ids not present
in both runs are skipped (`if (!a || !b) continue`), otherwise the id is pushed
onto the lists whose conditions hold. -/
def classifyIds (A B : List RunItem) : List String → ComparisonResult
  | [] => ⟨[], [], [], []⟩
  | id :: rest =>
    let res := classifyIds A B rest
    match itemsGet A id, itemsGet B id with
    | some a, some b =>
      let aPass := passClean a
      let bPass := passClean b
      { regressions := (if aPass && !bPass then [id] else []) ++ res.regressions
        improvements := (if !aPass && bPass then [id] else []) ++ res.improvements
        errorsFixed :=
          (if errTruthy a.error && !(errTruthy b.error) && bPass then [id] else [])
            ++ res.errorsFixed
        errorsNew :=
          (if !(errTruthy a.error) && errTruthy b.error then [id] else [])
            ++ res.errorsNew }
    | _, _ => res

/-- The comparator's classification of two archived runs' item collections. -/
def compareRuns (A B : List RunItem) : ComparisonResult :=
  classifyIds A B (unionIds A B)

/-! ## Run summary and Δaccuracy -/

/-- Fuel-based ⌊log₂ n⌋ (structural recursion, so kernel evaluation works;
`fuel = n` always suffices). -/
def log2fuel : ℕ → ℕ → ℕ
  | 0, _ => 0
  | fuel + 1, n => if 2 ≤ n then log2fuel fuel (n / 2) + 1 else 0

/-- ⌊log₂ n⌋ for `n ≥ 1`. -/
def nlog2 (n : ℕ) : ℕ := log2fuel n n

/-- Round the fraction `N / D` (`D ≠ 0`) to the nearest integer, ties to even
(the IEEE-754 default rounding). -/
def rne (N D : ℕ) : ℕ :=
  let n0 := N / D
  let r := N % D
  if 2 * r < D then n0
  else if D < 2 * r then n0 + 1
  else if n0 % 2 = 0 then n0 else n0 + 1

/-- The IEEE-754 binary64 double nearest to the nonnegative fraction `a / b`
(`b ≠ 0`), as its exact rational value: the 53-bit significand is obtained by
rounding `(a/b) / 2^(e-52)` to the nearest integer, ties to even, at the
binade exponent `e = ⌊log₂ (a/b)⌋`.  This is also the result of the IEEE
double division `a / b` when both operands are exactly representable, e.g.
the `passed / total` quotient.  (Overflow and subnormal underflow are outside
the range any accuracy value can reach and are not modelled.)  Everything is
computed over `ℕ`/`ℤ` with `mkRat` at the boundary so that kernel evaluation
(`decide`) works. -/
def doubleOfFrac (a b : ℕ) : ℚ :=
  if a = 0 then 0
  else
    let d : ℤ := (nlog2 a : ℤ) - (nlog2 b : ℤ)
    let fits : Bool :=
      if 0 ≤ d then decide (b * 2 ^ d.toNat ≤ a) else decide (b ≤ a * 2 ^ (-d).toNat)
    let e : ℤ := if fits then d else d - 1
    let m : ℕ :=
      if 0 ≤ 52 - e then rne (a * 2 ^ (52 - e).toNat) b else rne a (b * 2 ^ (e - 52).toNat)
    if 0 ≤ e - 52 then ((m * 2 ^ (e - 52).toNat : ℕ) : ℚ) else mkRat (m : ℤ) (2 ^ (52 - e).toNat)

/-- `Number(x.toFixed(2))` for a nonnegative double value `x` (given as its
exact rational value): per ECMAScript, `toFixed(2)` picks the integer `n`
making `n / 100` closest to `x` (ties towards the larger `n`), i.e.
`n = ⌊100·x + 1/2⌋`, computed here on `x`'s exact fraction as
`⌊(200·num + den) / (2·den)⌋`; `Number` then parses the decimal string back
to the nearest double. -/
def jsToFixed2 (x : ℚ) : ℚ :=
  doubleOfFrac (Int.fdiv (200 * x.num + (x.den : ℤ)) (2 * (x.den : ℤ))).toNat 100

/-- `const accuracy = total ? Number((passed / total).toFixed(2)) : 0` from
`eval/run.mjs`: the two-decimal `toFixed` rounding of the IEEE-754 double
quotient `passed / total`. -/
def runAccuracy (passed total : ℕ) : ℚ :=
  if total = 0 then 0 else jsToFixed2 (doubleOfFrac passed total)

/-- Modelled from the spec: "passed/total rounded to two decimal places" read
as exact decimal rounding of the ratio (half up), stated for comparison with
the program’s `toFixed`-on-doubles behaviour. -/
def round2Exact (q : ℚ) : ℚ := (⌊q * 100 + 1 / 2⌋ : ℚ) / 100

/-- The fields of the archived `summary` that the comparator reads. -/
structure RunSummary where
  model : String
  golden_hash : String
  total : Nat
  passed : Nat
  accuracy : Option ℚ
  avg_latency_ms : Nat
deriving DecidableEq, Repr

/-- The summary record assembled at the end of `main` in `eval/run.mjs`
(restricted to the comparator-relevant fields): the stored accuracy is always
present and already rounded. -/
def mkSummary (modelName goldenHash : String) (total passed avg : ℕ) : RunSummary :=
  { model := modelName, golden_hash := goldenHash, total := total, passed := passed,
    accuracy := some (runAccuracy passed total), avg_latency_ms := avg }

/-- `s.accuracy ?? (s.passed / s.total)` from `eval/compare.mjs`: `??` takes
the fallback only when the field is null/undefined (absent). -/
def accForCompare (s : RunSummary) : ℚ :=
  match s.accuracy with
  | some a => a
  | none => (s.passed : ℚ) / (s.total : ℚ)

/-- `const dAcc = accB - accA`. -/
def dAcc (A B : RunSummary) : ℚ := accForCompare B - accForCompare A

/-! ## Retrieval-hit checking (`eval/retrieval_adapter.mjs`) -/

/-- One element of the ranked `results` list; the hit checker reads only
`text` (`result.text || ""`, so an absent field is `none`). -/
structure RetrievalResult where
  text : Option JStr
deriving DecidableEq, Repr

/-- `normalizeText` from `eval/retrieval_adapter.mjs`: NFKC fold, whitespace
collapse, lower-case, trim — and, unlike `normalizeAggressive`, no quote/dash
rewriting and no trailing-punctuation strip. -/
def normalizeText (s : Option JStr) : JStr :=
  jsTrim (jsToLower (collapseWs (nfkc (s.getD []))))

/-- `checkRetrievalHit` from `eval/retrieval_adapter.mjs`; the early-return
`for` loop over `results` is `List.any`. -/
def checkRetrievalHit (results : List RetrievalResult) (expectedSubstring : Option JStr) : Bool :=
  let normalizedExpected := normalizeText expectedSubstring
  results.any fun r =>
    jsIncludes (normalizeText (some (r.text.getD []))) normalizedExpected

/-! ## Golden-set loading (`eval/run.mjs`) -/

/-- Parsed JSON values (what `JSON.parse` hands back). -/
inductive JValue where
  | null
  | bool (b : Bool)
  | num (q : ℚ)
  | str (s : String)
  | arr (elems : List JValue)
  | obj (fields : List (String × JValue))

/-- `'k' in r` for an object's field list. -/
def hasKey (fields : List (String × JValue)) (k : String) : Bool :=
  fields.any fun p => p.1 == k

/-- The validation loop of `readGoldenJSON`: for each row index `i` and each
required key in order, `if (!(key in r)) throw new Error(\x60row ${i} missing
'${key}'\x60)`.  For an array row, `in` tests indices/properties, so every
required key is reported missing starting with the first; for a primitive row
the JS `in` operator itself throws a `TypeError`, modelled by a distinct
message. -/
def validateRows (keys : List String) : Nat → List JValue → Except String Unit
  | _, [] => .ok ()
  | i, r :: rest =>
    match r with
    | .obj fields =>
      match keys.find? (fun k => !(hasKey fields k)) with
      | some k => .error ("row " ++ toString i ++ " missing '" ++ k ++ "'")
      | none => validateRows keys (i + 1) rest
    | .arr _ =>
      match keys.head? with
      | some k => .error ("row " ++ toString i ++ " missing '" ++ k ++ "'")
      | none => validateRows keys (i + 1) rest
    | _ => .error "TypeError: cannot use 'in' operator on a non-object row"

/-- The required keys of the generation golden set. -/
def goldenKeys : List String := ["id", "question", "context", "reference", "eval_type"]

/-- `readGoldenJSON` from `eval/run.mjs` (minus file I/O): reject a non-array
top level, then validate every row, failing fast with the offending row index
and missing field name. -/
def readGoldenJSON (data : JValue) : Except String (List JValue) :=
  match data with
  | .arr rows =>
    match validateRows goldenKeys 0 rows with
    | .error m => .error m
    | .ok _ => .ok rows
  | _ => .error "golden file must be a JSON array"

/-- The load path `main` actually executes (`eval/run.mjs`): bare `JSON.parse`
with no validation, then `for (const t of tests)`.  `readGoldenJSON` is never
called by `main`.  Iterating a non-iterable JSON value throws a `TypeError`; a
JSON string is iterable character-wise. -/
def mainLoadTests (data : JValue) : Except String (List JValue) :=
  match data with
  | .arr rows => .ok rows
  | .str s => .ok (s.data.map fun c => JValue.str (String.mk [c]))
  | _ => .error "TypeError: tests is not iterable"

/-- Property access `t.k` (`undefined`, i.e. `none`, when absent). -/
def objGet (r : JValue) (k : String) : Option JValue :=
  match r with
  | .obj fields => (fields.find? fun p => p.1 == k).map (·.2)
  | _ => none

/-- Does the string end in one of the punctuation characters `.,;:!?` -/
def endsPunct (s : JStr) : Bool :=
  match s.getLast? with
  | some c => isPunct c
  | none => false

/-- A character left alone by all three quote/dash rewriting passes of
`normalizeAggressive`. -/
def cleanChar (c : Char) : Bool :=
  !(smartDQ.contains c) && !(smartSQ.contains c) && !(dashChars.contains c)

/-- A golden row with `id` and `question` but no `context`, `reference` or
`eval_type` — the missing-required-field scenario. -/
def badRow : JValue := .obj [("id", .str "1"), ("question", .str "q")]

/-! ## Supporting lemmas -/

/-! ### Substring containment -/

theorem startsWithL_iff {s p : JStr} : startsWithL s p = true ↔ ∃ t, s = p ++ t := by
  induction p generalizing s with
  | nil => simp [startsWithL]
  | cons b bs ih =>
    cases s with
    | nil => simp [startsWithL]
    | cons a as =>
      simp only [startsWithL, Bool.and_eq_true, beq_iff_eq, ih, List.cons_append,
        List.cons.injEq]
      constructor
      · rintro ⟨rfl, t, rfl⟩
        exact ⟨t, rfl, rfl⟩
      · rintro ⟨t, rfl, rfl⟩
        exact ⟨rfl, t, rfl⟩

theorem jsIncludes_iff {hay needle : JStr} :
    jsIncludes hay needle = true ↔ ∃ pre suf, hay = pre ++ needle ++ suf := by
  unfold jsIncludes
  simp only [List.any_eq_true, List.mem_range, startsWithL_iff]
  constructor
  · rintro ⟨i, _, t, ht⟩
    refine ⟨hay.take i, t, ?_⟩
    conv_lhs => rw [← List.take_append_drop i hay]
    rw [ht, List.append_assoc]
  · rintro ⟨pre, suf, rfl⟩
    refine ⟨pre.length, ?_, suf, ?_⟩
    · simp [Nat.lt_succ_iff]
    · rw [List.append_assoc, List.drop_left]

theorem jsIncludes_nil (hay : JStr) : jsIncludes hay [] = true :=
  jsIncludes_iff.mpr ⟨[], hay, rfl⟩

/-! ### Pointwise facts about `lowerChar` -/

theorem lowerChar_cases (c : Char) :
    lowerChar c = c ∨ ∃ p ∈ lowerPairs, c = p.1 ∧ lowerChar c = p.2 := by
  rcases h : lowerPairs.find? (fun p => p.1 == c) with _ | p
  · left
    simp [lowerChar, h]
  · right
    have h1 := List.find?_some h
    change (p.1 == c) = true at h1
    refine ⟨p, List.mem_of_find?_eq_some h, (eq_of_beq h1).symm, ?_⟩
    simp [lowerChar, h]

theorem lowerChar_idem (c : Char) : lowerChar (lowerChar c) = lowerChar c := by
  rcases lowerChar_cases c with h | ⟨p, hp, _, h2⟩
  · rw [h]
    exact h
  · rw [h2]
    have hall : lowerPairs.all (fun q => lowerChar q.2 == q.2) = true := by decide
    exact eq_of_beq (List.all_eq_true.mp hall p hp)

theorem lowerChar_isJsWs (c : Char) : isJsWs (lowerChar c) = isJsWs c := by
  rcases lowerChar_cases c with h | ⟨p, hp, rfl, h2⟩
  · rw [h]
  · rw [h2]
    have hall : lowerPairs.all (fun q => isJsWs q.2 == isJsWs q.1) = true := by decide
    exact eq_of_beq (List.all_eq_true.mp hall p hp)

theorem lowerChar_isCollapsible (c : Char) : isCollapsible (lowerChar c) = isCollapsible c := by
  rcases lowerChar_cases c with h | ⟨p, hp, rfl, h2⟩
  · rw [h]
  · rw [h2]
    have hall : lowerPairs.all (fun q => isCollapsible q.2 == isCollapsible q.1) = true := by
      decide
    exact eq_of_beq (List.all_eq_true.mp hall p hp)

theorem lowerChar_isPunct (c : Char) : isPunct (lowerChar c) = isPunct c := by
  rcases lowerChar_cases c with h | ⟨p, hp, rfl, h2⟩
  · rw [h]
  · rw [h2]
    have hall : lowerPairs.all (fun q => isPunct q.2 == isPunct q.1) = true := by decide
    exact eq_of_beq (List.all_eq_true.mp hall p hp)

theorem lowerChar_space : lowerChar ' ' = ' ' := by decide

theorem lowerChar_clean {c : Char} (h : cleanChar c = true) :
    cleanChar (lowerChar c) = true := by
  rcases lowerChar_cases c with h1 | ⟨p, hp, rfl, h2⟩
  · rw [h1]
    exact h
  · rw [h2]
    have hall : lowerPairs.all (fun q => cleanChar q.2) = true := by decide
    exact List.all_eq_true.mp hall p hp

/-! ### `replAll` and clean characters -/

theorem replAll_eq_self {X : List Char} {r : Char} :
    ∀ {l : JStr}, (∀ c ∈ l, X.contains c = false) → replAll X r l = l
  | [], _ => rfl
  | a :: as, h => by
    have ha := h a (List.mem_cons_self a as)
    have has : ∀ c ∈ as, X.contains c = false := fun c hc => h c (List.mem_cons_of_mem a hc)
    have ih := replAll_eq_self (X := X) (r := r) has
    simp only [replAll] at ih ⊢
    rw [List.map_cons, ih, ha]
    simp

theorem mem_replAll_or {X : List Char} {r : Char} {l : JStr} {c : Char}
    (hc : c ∈ replAll X r l) : c = r ∨ c ∈ l := by
  rcases List.mem_map.mp hc with ⟨d, hd, rfl⟩
  by_cases h : X.contains d = true
  · exact Or.inl (if_pos h)
  · rw [if_neg h]
    exact Or.inr hd

theorem not_contains_replAll_self {X : List Char} {r : Char} (hr : X.contains r = false)
    {l : JStr} {c : Char} (hc : c ∈ replAll X r l) : X.contains c = false := by
  rcases List.mem_map.mp hc with ⟨d, hd, rfl⟩
  by_cases h : X.contains d = true
  · rw [if_pos h]
    exact hr
  · rw [if_neg h]
    exact Bool.eq_false_iff.mpr h

theorem not_contains_replAll_other {X Y : List Char} {r : Char} (hr : Y.contains r = false)
    {l : JStr} (h : ∀ c ∈ l, Y.contains c = false) {c : Char}
    (hc : c ∈ replAll X r l) : Y.contains c = false := by
  rcases mem_replAll_or hc with rfl | hmem
  · exact hr
  · exact h c hmem

theorem cleanChar_dq {c : Char} (h : cleanChar c = true) : smartDQ.contains c = false := by
  simp only [cleanChar, Bool.and_eq_true, Bool.not_eq_true'] at h
  exact h.1.1

theorem cleanChar_sq {c : Char} (h : cleanChar c = true) : smartSQ.contains c = false := by
  simp only [cleanChar, Bool.and_eq_true, Bool.not_eq_true'] at h
  exact h.1.2

theorem cleanChar_dash {c : Char} (h : cleanChar c = true) : dashChars.contains c = false := by
  simp only [cleanChar, Bool.and_eq_true, Bool.not_eq_true'] at h
  exact h.2

/-! ### Membership propagation through the pipeline stages -/

theorem collapseWsAux_cons_pos {a : Char} (ha : isCollapsible a = true) (prev : Bool) (as : JStr) :
    collapseWsAux prev (a :: as) =
      if prev then collapseWsAux true as else ' ' :: collapseWsAux true as := by
  simp [collapseWsAux, ha]

theorem collapseWsAux_cons_neg {a : Char} (ha : isCollapsible a = false) (prev : Bool) (as : JStr) :
    collapseWsAux prev (a :: as) = a :: collapseWsAux false as := by
  simp [collapseWsAux, ha]

theorem mem_collapseWsAux {c : Char} :
    ∀ {l : JStr} {prev : Bool}, c ∈ collapseWsAux prev l → c = ' ' ∨ c ∈ l := by
  intro l
  induction l with
  | nil => intro prev h; simp [collapseWsAux] at h
  | cons a as ih =>
    intro prev h
    by_cases ha : isCollapsible a = true
    · rw [collapseWsAux_cons_pos ha prev as] at h
      have h' : c = ' ' ∨ c ∈ collapseWsAux true as := by
        cases prev with
        | true => exact Or.inr h
        | false =>
          rw [if_neg (by simp)] at h
          rcases List.mem_cons.mp h with rfl | h1
          · exact Or.inl rfl
          · exact Or.inr h1
      rcases h' with h1 | h1
      · exact Or.inl h1
      · rcases ih h1 with h2 | h2
        · exact Or.inl h2
        · exact Or.inr (List.mem_cons_of_mem a h2)
    · rw [collapseWsAux_cons_neg (Bool.eq_false_iff.mpr ha) prev as] at h
      rcases List.mem_cons.mp h with rfl | h1
      · exact Or.inr (List.mem_cons_self _ _)
      · rcases ih h1 with h2 | h2
        · exact Or.inl h2
        · exact Or.inr (List.mem_cons_of_mem a h2)

theorem mem_dropTrailWhile {p : Char → Bool} {l : JStr} {c : Char}
    (h : c ∈ dropTrailWhile p l) : c ∈ l := by
  unfold dropTrailWhile at h
  rw [List.mem_reverse] at h
  exact List.mem_reverse.mp (List.IsSuffix.mem h (List.dropWhile_suffix p))

theorem mem_jsTrim {l : JStr} {c : Char} (h : c ∈ jsTrim l) : c ∈ l := by
  unfold jsTrim at h
  exact List.IsSuffix.mem (mem_dropTrailWhile h) (List.dropWhile_suffix isJsWs)

theorem mem_stripTrailingPunct {l : JStr} {c : Char} (h : c ∈ stripTrailingPunct l) : c ∈ l :=
  mem_dropTrailWhile h

/-- Every character of `normalizeAggressive s` is untouched by the quote/dash
rewriting passes (they were rewritten away on the first pass and nothing
reintroduces them). -/
theorem normalizeAggressive_clean (s : Option JStr) :
    ∀ c ∈ normalizeAggressive s, cleanChar c = true := by
  intro c hc
  unfold normalizeAggressive at hc
  have hc1 := mem_jsTrim hc
  rcases List.mem_map.mp hc1 with ⟨d, hd, rfl⟩
  apply lowerChar_clean
  have hd1 := mem_stripTrailingPunct hd
  rcases mem_collapseWsAux hd1 with rfl | hd2
  · decide
  · have h1 : smartDQ.contains d = false := by
      refine not_contains_replAll_other (by decide) ?_ hd2
      intro e he
      refine not_contains_replAll_other (by decide) ?_ he
      intro e' he'
      exact not_contains_replAll_self (by decide) he'
    have h2 : smartSQ.contains d = false := by
      refine not_contains_replAll_other (by decide) ?_ hd2
      intro e he
      exact not_contains_replAll_self (by decide) he
    have h3 : dashChars.contains d = false := not_contains_replAll_self (by decide) hd2
    unfold cleanChar
    rw [h1, h2, h3]
    rfl

/-! ### Whitespace-run normal form -/

/-- Every collapsible character of the string is a plain space. -/
def collSpace (l : JStr) : Prop := ∀ c ∈ l, isCollapsible c = true → c = ' '

/-- No two adjacent collapsible characters. -/
def noTwoColl (l : JStr) : Prop :=
  List.Chain' (fun a b => ¬(isCollapsible a = true ∧ isCollapsible b = true)) l

theorem collSpace_collapseWsAux : ∀ (l : JStr) (prev : Bool), collSpace (collapseWsAux prev l) := by
  intro l
  induction l with
  | nil => intro prev c hc; simp [collapseWsAux] at hc
  | cons a as ih =>
    intro prev c hc hcoll
    by_cases ha : isCollapsible a = true
    · rw [collapseWsAux_cons_pos ha prev as] at hc
      have hc' : c = ' ' ∨ c ∈ collapseWsAux true as := by
        cases prev with
        | true => exact Or.inr hc
        | false =>
          rw [if_neg (by simp)] at hc
          rcases List.mem_cons.mp hc with rfl | h1
          · exact Or.inl rfl
          · exact Or.inr h1
      rcases hc' with rfl | h1
      · rfl
      · exact ih true c h1 hcoll
    · rw [collapseWsAux_cons_neg (Bool.eq_false_iff.mpr ha) prev as] at hc
      rcases List.mem_cons.mp hc with rfl | h1
      · exact absurd hcoll ha
      · exact ih false c h1 hcoll

theorem chain_collapseWsAux :
    ∀ (l : JStr) (prev : Bool),
      noTwoColl (collapseWsAux prev l) ∧
        (prev = true → ∀ d ∈ (collapseWsAux prev l).head?, isCollapsible d = false) := by
  intro l
  induction l with
  | nil =>
    intro prev
    refine ⟨List.chain'_nil, ?_⟩
    intro _ d hd
    simp [collapseWsAux] at hd
  | cons a as ih =>
    intro prev
    by_cases ha : isCollapsible a = true
    · cases prev with
      | true =>
        rw [collapseWsAux_cons_pos ha true as, if_pos rfl]
        exact ih true
      | false =>
        rw [collapseWsAux_cons_pos ha false as, if_neg (by simp)]
        constructor
        · refine List.chain'_cons'.mpr ⟨?_, (ih true).1⟩
          intro y hy hcontra
          have hy' := (ih true).2 rfl y hy
          rw [hy'] at hcontra
          exact absurd hcontra.2 (by simp)
        · intro hfalse
          exact absurd hfalse (by simp)
    · have ha' : isCollapsible a = false := Bool.eq_false_iff.mpr ha
      rw [collapseWsAux_cons_neg ha' prev as]
      constructor
      · refine List.chain'_cons'.mpr ⟨?_, (ih false).1⟩
        intro y _ hcontra
        exact ha hcontra.1
      · intro _ d hd
        have hda : a = d := by simpa using hd
        rw [← hda]
        exact ha'

theorem collSpace_collapseWs (l : JStr) : collSpace (collapseWs l) :=
  collSpace_collapseWsAux l false

theorem noTwoColl_collapseWs (l : JStr) : noTwoColl (collapseWs l) :=
  (chain_collapseWsAux l false).1

theorem dropTrailWhile_eq_rdropWhile (p : Char → Bool) (l : JStr) :
    dropTrailWhile p l = List.rdropWhile p l := rfl

theorem dropTrailWhile_prefixOf (p : Char → Bool) (l : JStr) : dropTrailWhile p l <+: l := by
  rw [dropTrailWhile_eq_rdropWhile]
  apply List.rdropWhile_prefix

theorem noTwoColl_dropTrailWhile {p : Char → Bool} {l : JStr} (h : noTwoColl l) :
    noTwoColl (dropTrailWhile p l) :=
  h.prefix (dropTrailWhile_prefixOf p l)

theorem noTwoColl_jsTrim {l : JStr} (h : noTwoColl l) : noTwoColl (jsTrim l) :=
  noTwoColl_dropTrailWhile (h.suffix (List.dropWhile_suffix isJsWs))

theorem noTwoColl_jsToLower {l : JStr} (h : noTwoColl l) : noTwoColl (jsToLower l) := by
  unfold jsToLower noTwoColl
  rw [List.chain'_map]
  refine h.imp ?_
  intro a b hab hcontra
  rw [lowerChar_isCollapsible, lowerChar_isCollapsible] at hcontra
  exact hab hcontra

theorem collSpace_jsToLower {l : JStr} (h : collSpace l) : collSpace (jsToLower l) := by
  intro c hc hcoll
  rcases List.mem_map.mp hc with ⟨d, hd, rfl⟩
  rw [lowerChar_isCollapsible] at hcoll
  rw [h d hd hcoll]
  exact lowerChar_space

theorem collapseWsAux_eq_self :
    ∀ l : JStr, collSpace l → noTwoColl l →
      collapseWsAux false l = l ∧
        ((∀ d ∈ l.head?, isCollapsible d = false) → collapseWsAux true l = l) := by
  intro l
  induction l with
  | nil => exact fun _ _ => ⟨rfl, fun _ => rfl⟩
  | cons a as ih =>
    intro hspace hchain
    have hspace' : collSpace as := fun c hc => hspace c (List.mem_cons_of_mem a hc)
    have hd := List.chain'_cons'.mp hchain
    have ihr := ih hspace' hd.2
    by_cases ha : isCollapsible a = true
    · have haSpace : a = ' ' := hspace a (List.mem_cons_self a as) ha
      have hheadas : ∀ d ∈ as.head?, isCollapsible d = false := by
        intro d hdmem
        by_contra hcontra
        rw [Bool.not_eq_false] at hcontra
        exact hd.1 d hdmem ⟨ha, hcontra⟩
      constructor
      · rw [collapseWsAux_cons_pos ha false as, if_neg (by simp), ihr.2 hheadas, haSpace]
      · intro hhead
        have := hhead a (by simp)
        rw [this] at ha
        exact absurd ha (by simp)
    · have ha' : isCollapsible a = false := Bool.eq_false_iff.mpr ha
      constructor
      · rw [collapseWsAux_cons_neg ha' false as, ihr.1]
      · intro _
        rw [collapseWsAux_cons_neg ha' true as, ihr.1]

theorem collapseWs_eq_self {l : JStr} (h1 : collSpace l) (h2 : noTwoColl l) :
    collapseWs l = l :=
  (collapseWsAux_eq_self l h1 h2).1

/-! ### Self-fixity of the remaining stages -/

theorem dropTrailWhile_eq_self {p : Char → Bool} {l : JStr}
    (h : ∀ c ∈ l.getLast?, p c = false) : dropTrailWhile p l = l := by
  unfold dropTrailWhile
  have hstep : l.reverse.dropWhile p = l.reverse := by
    cases hr : l.reverse with
    | nil => simp
    | cons x xs =>
      have hx : p x = false := by
        apply h
        rw [← List.head?_reverse, hr]
        simp
      simp [List.dropWhile_cons, hx]
  rw [hstep, List.reverse_reverse]

theorem stripTrailingPunct_eq_self {l : JStr} (h : endsPunct l = false) :
    stripTrailingPunct l = l := by
  apply dropTrailWhile_eq_self
  intro c hc
  unfold endsPunct at h
  cases hl : l.getLast? with
  | none => rw [hl] at hc; simp at hc
  | some x =>
    rw [hl] at h hc
    simp only [Option.mem_def, Option.some.injEq] at hc
    subst hc
    simpa using h

theorem head_dropWhile_false {p : Char → Bool} :
    ∀ {l : JStr} {c : Char}, c ∈ (l.dropWhile p).head? → p c = false := by
  intro l
  induction l with
  | nil => intro c hc; simp at hc
  | cons a as ih =>
    intro c hc
    by_cases ha : p a = true
    · rw [List.dropWhile_cons, if_pos ha] at hc
      exact ih hc
    · rw [List.dropWhile_cons, if_neg ha] at hc
      have hca : a = c := by simpa using hc
      rw [← hca]
      exact Bool.eq_false_iff.mpr ha

theorem dropWhile_eq_self_of_head {p : Char → Bool} {l : JStr}
    (h : ∀ c ∈ l.head?, p c = false) : l.dropWhile p = l := by
  cases l with
  | nil => rfl
  | cons a as =>
    have ha : p a = false := h a (by simp)
    simp [List.dropWhile_cons, ha]

theorem head?_mono {v u : JStr} (hp : v <+: u) {c : Char} (hc : c ∈ v.head?) :
    c ∈ u.head? := by
  rcases hp with ⟨t, rfl⟩
  cases v with
  | nil => simp at hc
  | cons a as => simpa using hc

theorem jsTrim_idem (l : JStr) : jsTrim (jsTrim l) = jsTrim l := by
  unfold jsTrim
  have hhead : ∀ c ∈ (dropTrailWhile isJsWs (l.dropWhile isJsWs)).head?, isJsWs c = false := by
    intro c hc
    exact head_dropWhile_false
      (head?_mono (dropTrailWhile_prefixOf isJsWs (l.dropWhile isJsWs)) hc)
  rw [dropWhile_eq_self_of_head hhead]
  apply dropTrailWhile_eq_self
  intro c hc
  have hne : dropTrailWhile isJsWs (l.dropWhile isJsWs) ≠ [] := by
    intro h0
    rw [h0] at hc
    simp at hc
  rw [List.getLast?_eq_getLast _ hne] at hc
  have hc' : (dropTrailWhile isJsWs (l.dropWhile isJsWs)).getLast hne = c := by simpa using hc
  rw [← hc']
  exact Bool.eq_false_iff.mpr (List.rdropWhile_last_not _ _ hne)

theorem jsToLower_eq_self : ∀ {l : JStr}, (∀ c ∈ l, lowerChar c = c) → jsToLower l = l
  | [], _ => rfl
  | a :: as, h => by
    have ih := jsToLower_eq_self fun c hc => h c (List.mem_cons_of_mem a hc)
    simp only [jsToLower] at ih ⊢
    rw [List.map_cons, h a (List.mem_cons_self a as), ih]

/-! ### The normal form of `normalizeAggressive` output -/

theorem normalizeAggressive_collSpace (s : Option JStr) :
    collSpace (normalizeAggressive s) := by
  intro c hc hcoll
  unfold normalizeAggressive at hc
  have hc1 := mem_jsTrim hc
  rcases List.mem_map.mp hc1 with ⟨d, hd, rfl⟩
  rw [lowerChar_isCollapsible] at hcoll
  rw [collSpace_collapseWs _ d (mem_stripTrailingPunct hd) hcoll]
  exact lowerChar_space

theorem normalizeAggressive_noTwoColl (s : Option JStr) :
    noTwoColl (normalizeAggressive s) :=
  noTwoColl_jsTrim (noTwoColl_jsToLower (noTwoColl_dropTrailWhile (noTwoColl_collapseWs _)))

theorem normalizeAggressive_lower_fix (s : Option JStr) :
    ∀ c ∈ normalizeAggressive s, lowerChar c = c := by
  intro c hc
  unfold normalizeAggressive at hc
  rcases List.mem_map.mp (mem_jsTrim hc) with ⟨d, _, rfl⟩
  exact lowerChar_idem d

theorem normalizeAggressive_idem_of_no_trailing_punct (s : Option JStr)
    (h : endsPunct (normalizeAggressive s) = false) :
    normalizeAggressive (some (normalizeAggressive s)) = normalizeAggressive s := by
  have hclean := normalizeAggressive_clean s
  show jsTrim (jsToLower (stripTrailingPunct (collapseWs
    (replAll dashChars '-' (replAll smartSQ '\'' (replAll smartDQ '"'
      (normalizeAggressive s))))))) = normalizeAggressive s
  rw [replAll_eq_self fun c hc => cleanChar_dq (hclean c hc)]
  rw [replAll_eq_self fun c hc => cleanChar_sq (hclean c hc)]
  rw [replAll_eq_self fun c hc => cleanChar_dash (hclean c hc)]
  rw [collapseWs_eq_self (normalizeAggressive_collSpace s) (normalizeAggressive_noTwoColl s)]
  rw [stripTrailingPunct_eq_self h]
  rw [jsToLower_eq_self (normalizeAggressive_lower_fix s)]
  have hform : normalizeAggressive s = jsTrim (jsToLower (stripTrailingPunct (collapseWs
    (replAll dashChars '-' (replAll smartSQ '\'' (replAll smartDQ '"'
      (nfkc (s.getD [])))))))) := rfl
  rw [hform, jsTrim_idem]

/-! ### Comparator classification -/

theorem classifyIds_cons_skip {A B : List RunItem} {x : String} (rest : List String)
    (h : itemsGet A x = none ∨ itemsGet B x = none) :
    classifyIds A B (x :: rest) = classifyIds A B rest := by
  rcases h with h | h
  · simp [classifyIds, h]
  · rcases hA : itemsGet A x with _ | a <;> simp [classifyIds, hA, h]

theorem classifyIds_cons_both {A B : List RunItem} {x : String} (rest : List String)
    {a b : RunItem} (hA : itemsGet A x = some a) (hB : itemsGet B x = some b) :
    classifyIds A B (x :: rest) =
      { regressions := (if passClean a && !passClean b then [x] else [])
          ++ (classifyIds A B rest).regressions
        improvements := (if !passClean a && passClean b then [x] else [])
          ++ (classifyIds A B rest).improvements
        errorsFixed :=
          (if errTruthy a.error && !(errTruthy b.error) && passClean b then [x] else [])
            ++ (classifyIds A B rest).errorsFixed
        errorsNew :=
          (if !(errTruthy a.error) && errTruthy b.error then [x] else [])
            ++ (classifyIds A B rest).errorsNew } := by
  simp [classifyIds, hA, hB]

/-- Generic membership characterisation for one of the four classification
lists, abstracted over its projection and push condition. -/
theorem mem_classify_of_step {A B : List RunItem} {id : String}
    {proj : ComparisonResult → List String} {cond : RunItem → RunItem → Bool}
    (hnil : proj (classifyIds A B []) = [])
    (hsome : ∀ x rest a b, itemsGet A x = some a → itemsGet B x = some b →
      proj (classifyIds A B (x :: rest)) =
        (if cond a b then [x] else []) ++ proj (classifyIds A B rest)) :
    ∀ ids : List String,
      id ∈ proj (classifyIds A B ids) ↔
        id ∈ ids ∧ ∃ a b, itemsGet A id = some a ∧ itemsGet B id = some b ∧
          cond a b = true := by
  intro ids
  induction ids with
  | nil =>
    rw [hnil]
    simp
  | cons x rest ih =>
    rcases hA : itemsGet A x with _ | a
    · rw [classifyIds_cons_skip rest (Or.inl hA)]
      rw [ih]
      constructor
      · rintro ⟨hmem, P⟩
        exact ⟨List.mem_cons_of_mem x hmem, P⟩
      · rintro ⟨hmem, a, b, hA', hB', hc⟩
        rcases List.mem_cons.mp hmem with rfl | hmem'
        · rw [hA] at hA'
          cases hA'
        · exact ⟨hmem', a, b, hA', hB', hc⟩
    · rcases hB : itemsGet B x with _ | b
      · rw [classifyIds_cons_skip rest (Or.inr hB)]
        rw [ih]
        constructor
        · rintro ⟨hmem, P⟩
          exact ⟨List.mem_cons_of_mem x hmem, P⟩
        · rintro ⟨hmem, a', b', hA', hB', hc⟩
          rcases List.mem_cons.mp hmem with rfl | hmem'
          · rw [hB] at hB'
            cases hB'
          · exact ⟨hmem', a', b', hA', hB', hc⟩
      · rw [hsome x rest a b hA hB, List.mem_append]
        constructor
        · rintro (hin | hin)
          · by_cases hc : cond a b = true
            · rw [if_pos hc] at hin
              have : id = x := by simpa using hin
              subst this
              exact ⟨List.mem_cons_self _ _, a, b, hA, hB, hc⟩
            · rw [if_neg hc] at hin
              simp at hin
          · rcases ih.mp hin with ⟨hmem, P⟩
            exact ⟨List.mem_cons_of_mem x hmem, P⟩
        · rintro ⟨hmem, a', b', hA', hB', hc⟩
          rcases List.mem_cons.mp hmem with rfl | hmem'
          · left
            rw [hA] at hA'
            rw [hB] at hB'
            obtain rfl := Option.some.inj hA'
            obtain rfl := Option.some.inj hB'
            rw [if_pos hc]
            simp
          · right
            exact ih.mpr ⟨hmem', a', b', hA', hB', hc⟩

theorem itemsGet_mem_ids {A : List RunItem} {id : String} {a : RunItem}
    (h : itemsGet A id = some a) : id ∈ A.map (fun i => i.id) := by
  unfold itemsGet at h
  have hmem := List.mem_of_find?_eq_some h
  have hid := List.find?_some h
  change (a.id == id) = true at hid
  rw [List.mem_reverse] at hmem
  exact eq_of_beq hid ▸ List.mem_map_of_mem (fun i => i.id) hmem

theorem mem_dedupFirst :
    ∀ {seen l : List String} {y : String},
      y ∈ dedupFirst seen l ↔ y ∈ l ∧ seen.contains y = false := by
  intro seen l
  induction l generalizing seen with
  | nil => simp [dedupFirst]
  | cons x xs ih =>
    intro y
    unfold dedupFirst
    by_cases hx : seen.contains x = true
    · rw [if_pos hx, ih]
      constructor
      · rintro ⟨hmem, hs⟩
        exact ⟨List.mem_cons_of_mem x hmem, hs⟩
      · rintro ⟨hmem, hs⟩
        rcases List.mem_cons.mp hmem with rfl | hmem'
        · rw [hs] at hx
          cases hx
        · exact ⟨hmem', hs⟩
    · rw [if_neg hx]
      constructor
      · intro hmem
        rcases List.mem_cons.mp hmem with rfl | hmem'
        · exact ⟨List.mem_cons_self _ _, Bool.eq_false_iff.mpr hx⟩
        · rcases ih.mp hmem' with ⟨hmem'', hs⟩
          rw [List.contains_cons] at hs
          rcases Bool.or_eq_false_iff.mp hs with ⟨_, hs2⟩
          exact ⟨List.mem_cons_of_mem x hmem'', hs2⟩
      · rintro ⟨hmem, hs⟩
        by_cases hyx : y = x
        · subst hyx
          exact List.mem_cons_self _ _
        · rcases List.mem_cons.mp hmem with rfl | hmem'
          · exact absurd rfl hyx
          · refine List.mem_cons_of_mem x (ih.mpr ⟨hmem', ?_⟩)
            rw [List.contains_cons, hs]
            have : (y == x) = false := by
              rw [beq_eq_false_iff_ne]
              exact hyx
            rw [this]
            rfl

theorem mem_unionIds {A B : List RunItem} {id : String} :
    id ∈ unionIds A B ↔ id ∈ A.map (fun i => i.id) ∨ id ∈ B.map (fun i => i.id) := by
  unfold unionIds
  rw [mem_dedupFirst]
  simp

theorem mem_compareRuns_regressions {A B : List RunItem} {id : String} :
    id ∈ (compareRuns A B).regressions ↔
      ∃ a b, itemsGet A id = some a ∧ itemsGet B id = some b ∧
        (passClean a && !passClean b) = true := by
  unfold compareRuns
  rw [mem_classify_of_step rfl
    (fun x rest a b hA hB => by rw [classifyIds_cons_both rest hA hB]) (unionIds A B)]
  constructor
  · rintro ⟨_, P⟩
    exact P
  · rintro ⟨a, b, hA, hB, hc⟩
    exact ⟨mem_unionIds.mpr (Or.inl (itemsGet_mem_ids hA)), a, b, hA, hB, hc⟩

theorem mem_compareRuns_improvements {A B : List RunItem} {id : String} :
    id ∈ (compareRuns A B).improvements ↔
      ∃ a b, itemsGet A id = some a ∧ itemsGet B id = some b ∧
        (!passClean a && passClean b) = true := by
  unfold compareRuns
  rw [mem_classify_of_step rfl
    (fun x rest a b hA hB => by rw [classifyIds_cons_both rest hA hB]) (unionIds A B)]
  constructor
  · rintro ⟨_, P⟩
    exact P
  · rintro ⟨a, b, hA, hB, hc⟩
    exact ⟨mem_unionIds.mpr (Or.inl (itemsGet_mem_ids hA)), a, b, hA, hB, hc⟩

theorem mem_compareRuns_errorsFixed {A B : List RunItem} {id : String} :
    id ∈ (compareRuns A B).errorsFixed ↔
      ∃ a b, itemsGet A id = some a ∧ itemsGet B id = some b ∧
        (errTruthy a.error && !(errTruthy b.error) && passClean b) = true := by
  unfold compareRuns
  rw [mem_classify_of_step rfl
    (fun x rest a b hA hB => by rw [classifyIds_cons_both rest hA hB]) (unionIds A B)]
  constructor
  · rintro ⟨_, P⟩
    exact P
  · rintro ⟨a, b, hA, hB, hc⟩
    exact ⟨mem_unionIds.mpr (Or.inl (itemsGet_mem_ids hA)), a, b, hA, hB, hc⟩

theorem mem_compareRuns_errorsNew {A B : List RunItem} {id : String} :
    id ∈ (compareRuns A B).errorsNew ↔
      ∃ a b, itemsGet A id = some a ∧ itemsGet B id = some b ∧
        (!(errTruthy a.error) && errTruthy b.error) = true := by
  unfold compareRuns
  rw [mem_classify_of_step rfl
    (fun x rest a b hA hB => by rw [classifyIds_cons_both rest hA hB]) (unionIds A B)]
  constructor
  · rintro ⟨_, P⟩
    exact P
  · rintro ⟨a, b, hA, hB, hc⟩
    exact ⟨mem_unionIds.mpr (Or.inl (itemsGet_mem_ids hA)), a, b, hA, hB, hc⟩

/-! ## Claims -/

/-- C3 (counterexample): normalization is *not* idempotent.  For
`"42. "` the trailing space hides the final `.` from the punctuation-strip
step, the closing `trim` then exposes it, and a second pass strips it:
`normalize("42. ") = "42."` but `normalize(normalize("42. ")) = "42"`. -/
theorem normalizeAggressive_not_idempotent :
    normalizeAggressive (some (s2l "42. ")) = s2l "42." ∧
    normalizeAggressive (some (normalizeAggressive (some (s2l "42. ")))) = s2l "42" ∧
    normalizeAggressive (some (normalizeAggressive (some (s2l "42. ")))) ≠
      normalizeAggressive (some (s2l "42. ")) :=
  ⟨by decide, by decide, by decide⟩

/-- C3 (amended): `normalize(normalize(s)) = normalize(s)` holds exactly when
the first pass leaves no trailing punctuation character — in particular for
every `s` (including null and strings with newlines) whose normalized form
does not end in one of `. , ; : ! ?`.  It fails when `normalize(s)` ends in
punctuation, which happens when trailing whitespace (spaces or newlines)
follows the final punctuation run of `s`. -/
theorem normalizeAggressive_idem (s : Option JStr)
    (h : endsPunct (normalizeAggressive s) = false) :
    normalizeAggressive (some (normalizeAggressive s)) = normalizeAggressive s :=
  normalizeAggressive_idem_of_no_trailing_punct s h

theorem normalizeAggressive_idem_witness :
    endsPunct (normalizeAggressive (some (s2l "The answer is 42."))) = false ∧
    normalizeAggressive (some (normalizeAggressive (some (s2l "The answer is 42.")))) =
      normalizeAggressive (some (s2l "The answer is 42.")) :=
  ⟨by decide, normalizeAggressive_idem _ (by decide)⟩

/-- C6: the `contains` verdict passes iff the normalized reference occurs as a
contiguous substring of the normalized output; a reference that normalizes to
the empty string passes for every output; `contains("The answer is 42.",
"42")` passes and `contains("The answer is forty-two.", "42")` fails. -/
theorem checkContains_spec :
    (∀ out reference : Option JStr,
      checkContains out reference = true ↔
        ∃ pre suf, normalizeAggressive out = pre ++ normalizeAggressive reference ++ suf) ∧
    (∀ out reference : Option JStr,
      normalizeAggressive reference = [] → checkContains out reference = true) ∧
    checkContains (some (s2l "The answer is 42.")) (some (s2l "42")) = true ∧
    checkContains (some (s2l "The answer is forty-two.")) (some (s2l "42")) = false := by
  refine ⟨?_, ?_, by decide, by decide⟩
  · intro out reference
    unfold checkContains
    exact jsIncludes_iff
  · intro out reference h
    unfold checkContains
    rw [h]
    exact jsIncludes_nil _

theorem checkContains_spec_witness :
    normalizeAggressive (some (s2l "!!!")) = [] ∧
    checkContains (some (s2l "any output at all")) (some (s2l "!!!")) = true :=
  ⟨by decide, checkContains_spec.2.1 _ _ (by decide)⟩

/-- C7: the `dontknow` verdict passes iff the normalized output equals the
normalized canonical phrase `"I don't know"` exactly — no substring matching:
an output that merely *contains* the phrase fails.  `"I don't know."` passes
(trailing punctuation ignored) and `"I do not know"` fails. -/
theorem checkDontKnow_spec :
    (∀ out : Option JStr,
      checkDontKnow out = true ↔
        normalizeAggressive out = normalizeAggressive (some (s2l "I don't know"))) ∧
    normalizeAggressive (some (s2l "I don't know")) = s2l "i don't know" ∧
    checkDontKnow (some (s2l "I don't know.")) = true ∧
    checkDontKnow (some (s2l "I do not know")) = false ∧
    jsIncludes (normalizeAggressive (some (s2l "Well, I don't know really")))
      (s2l "i don't know") = true ∧
    checkDontKnow (some (s2l "Well, I don't know really")) = false := by
  refine ⟨?_, by decide, by decide, by decide, by decide, by decide⟩
  intro out
  unfold checkDontKnow
  exact beq_iff_eq

theorem errTruthy_eq_false_iff {e : Option String} : errTruthy e = false ↔ e = none := by
  cases e <;> simp [errTruthy]

/-- C2: for ids present in both runs with `aPass = itemA.pass && !itemA.error`
and `bPass = itemB.pass && !itemB.error`, the comparator classifies the id as
regression iff `aPass ∧ ¬bPass`, improvement iff `¬aPass ∧ bPass`, new error
iff A has no error and B has one, fixed error iff A has an error, B has none
and B passes; hence no id is both a regression and an improvement, an item
with a recorded error never counts as passing, and an id erroring in A and
passing cleanly in B lands in both `improvements` and `errorsFixed`. -/
theorem compareRuns_classification :
    ∀ (A B : List RunItem) (id : String),
      (id ∈ (compareRuns A B).regressions ↔
        ∃ a b, itemsGet A id = some a ∧ itemsGet B id = some b ∧
          passClean a = true ∧ passClean b = false) ∧
      (id ∈ (compareRuns A B).improvements ↔
        ∃ a b, itemsGet A id = some a ∧ itemsGet B id = some b ∧
          passClean a = false ∧ passClean b = true) ∧
      (id ∈ (compareRuns A B).errorsNew ↔
        ∃ a b, itemsGet A id = some a ∧ itemsGet B id = some b ∧
          a.error = none ∧ errTruthy b.error = true) ∧
      (id ∈ (compareRuns A B).errorsFixed ↔
        ∃ a b, itemsGet A id = some a ∧ itemsGet B id = some b ∧
          errTruthy a.error = true ∧ b.error = none ∧ b.pass = true) ∧
      (∀ x : RunItem, errTruthy x.error = true → passClean x = false) ∧
      ¬(id ∈ (compareRuns A B).regressions ∧ id ∈ (compareRuns A B).improvements) ∧
      (∀ a b, itemsGet A id = some a → itemsGet B id = some b →
        errTruthy a.error = true → b.error = none → b.pass = true →
        id ∈ (compareRuns A B).improvements ∧ id ∈ (compareRuns A B).errorsFixed) := by
  intro A B id
  have herr : ∀ x : RunItem, errTruthy x.error = true → passClean x = false := by
    intro x hx
    unfold passClean
    rw [hx]
    simp
  have herrNone : ∀ e : Option String, e = none → errTruthy e = false := by
    intro e he
    rw [he]
    rfl
  refine ⟨?_, ?_, ?_, ?_, herr, ?_, ?_⟩
  · rw [mem_compareRuns_regressions]
    constructor
    · rintro ⟨a, b, hA, hB, hc⟩
      rcases Bool.and_eq_true_iff.mp hc with ⟨h1, h2⟩
      exact ⟨a, b, hA, hB, h1, Bool.not_eq_true' _ ▸ h2⟩
    · rintro ⟨a, b, hA, hB, h1, h2⟩
      refine ⟨a, b, hA, hB, ?_⟩
      rw [h1, h2]
      rfl
  · rw [mem_compareRuns_improvements]
    constructor
    · rintro ⟨a, b, hA, hB, hc⟩
      rcases Bool.and_eq_true_iff.mp hc with ⟨h1, h2⟩
      exact ⟨a, b, hA, hB, Bool.not_eq_true' _ ▸ h1, h2⟩
    · rintro ⟨a, b, hA, hB, h1, h2⟩
      refine ⟨a, b, hA, hB, ?_⟩
      rw [h1, h2]
      rfl
  · rw [mem_compareRuns_errorsNew]
    constructor
    · rintro ⟨a, b, hA, hB, hc⟩
      rcases Bool.and_eq_true_iff.mp hc with ⟨h1, h2⟩
      refine ⟨a, b, hA, hB, ?_, h2⟩
      exact errTruthy_eq_false_iff.mp (Bool.not_eq_true' _ ▸ h1)
    · rintro ⟨a, b, hA, hB, h1, h2⟩
      refine ⟨a, b, hA, hB, ?_⟩
      rw [herrNone a.error h1, h2]
      rfl
  · rw [mem_compareRuns_errorsFixed]
    constructor
    · rintro ⟨a, b, hA, hB, hc⟩
      rcases Bool.and_eq_true_iff.mp hc with ⟨hc', h3⟩
      rcases Bool.and_eq_true_iff.mp hc' with ⟨h1, h2⟩
      have hbe : b.error = none := errTruthy_eq_false_iff.mp (Bool.not_eq_true' _ ▸ h2)
      refine ⟨a, b, hA, hB, h1, hbe, ?_⟩
      rcases Bool.and_eq_true_iff.mp h3 with ⟨hp, _⟩
      exact hp
    · rintro ⟨a, b, hA, hB, h1, h2, h3⟩
      refine ⟨a, b, hA, hB, ?_⟩
      rw [h1, herrNone b.error h2]
      unfold passClean
      rw [h3, herrNone b.error h2]
      rfl
  · rintro ⟨hr, hi⟩
    rcases mem_compareRuns_regressions.mp hr with ⟨a, b, hA, hB, hc1⟩
    rcases mem_compareRuns_improvements.mp hi with ⟨a', b', hA', hB', hc2⟩
    rw [hA] at hA'
    obtain rfl := Option.some.inj hA'
    rcases Bool.and_eq_true_iff.mp hc1 with ⟨h1, _⟩
    rcases Bool.and_eq_true_iff.mp hc2 with ⟨h2, _⟩
    rw [h1] at h2
    exact absurd h2 (by simp)
  · intro a b hA hB ha hbe hbp
    have hbPass : passClean b = true := by
      unfold passClean
      rw [hbp, herrNone b.error hbe]
      rfl
    constructor
    · rw [mem_compareRuns_improvements]
      refine ⟨a, b, hA, hB, ?_⟩
      rw [herr a ha, hbPass]
      rfl
    · rw [mem_compareRuns_errorsFixed]
      refine ⟨a, b, hA, hB, ?_⟩
      rw [ha, herrNone b.error hbe, hbPass]
      rfl

theorem compareRuns_classification_witness :
    itemsGet [RunItem.mk "7" false 120 (some "PIPELINE_ERROR") []] "7" =
        some (RunItem.mk "7" false 120 (some "PIPELINE_ERROR") []) ∧
    itemsGet [RunItem.mk "7" true 80 none (s2l "fine")] "7" =
        some (RunItem.mk "7" true 80 none (s2l "fine")) ∧
    errTruthy (some "PIPELINE_ERROR") = true ∧
    ("7" ∈ (compareRuns [RunItem.mk "7" false 120 (some "PIPELINE_ERROR") []]
        [RunItem.mk "7" true 80 none (s2l "fine")]).improvements ∧
      "7" ∈ (compareRuns [RunItem.mk "7" false 120 (some "PIPELINE_ERROR") []]
        [RunItem.mk "7" true 80 none (s2l "fine")]).errorsFixed) := by
  refine ⟨by decide, by decide, by decide, ?_⟩
  exact (compareRuns_classification [RunItem.mk "7" false 120 (some "PIPELINE_ERROR") []]
    [RunItem.mk "7" true 80 none (s2l "fine")] "7").2.2.2.2.2.2
    (RunItem.mk "7" false 120 (some "PIPELINE_ERROR") [])
    (RunItem.mk "7" true 80 none (s2l "fine"))
    (by decide) (by decide) (by decide) rfl rfl

/-- C8: the comparator classifies only ids present in both runs' item maps; a
one-sided id lands in none of the four lists (and the comparison is a total
function — the loop `continue`s instead of raising). -/
theorem compareRuns_onesided :
    ∀ (A B : List RunItem) (id : String),
      itemsGet A id = none ∨ itemsGet B id = none →
        id ∉ (compareRuns A B).regressions ∧ id ∉ (compareRuns A B).improvements ∧
        id ∉ (compareRuns A B).errorsNew ∧ id ∉ (compareRuns A B).errorsFixed := by
  intro A B id h
  have hkill : ∀ (a b : RunItem), itemsGet A id = some a → itemsGet B id = some b → False := by
    intro a b hA hB
    rcases h with h | h
    · rw [h] at hA
      cases hA
    · rw [h] at hB
      cases hB
  refine ⟨?_, ?_, ?_, ?_⟩ <;> intro hmem
  · rcases mem_compareRuns_regressions.mp hmem with ⟨a, b, hA, hB, _⟩
    exact hkill a b hA hB
  · rcases mem_compareRuns_improvements.mp hmem with ⟨a, b, hA, hB, _⟩
    exact hkill a b hA hB
  · rcases mem_compareRuns_errorsNew.mp hmem with ⟨a, b, hA, hB, _⟩
    exact hkill a b hA hB
  · rcases mem_compareRuns_errorsFixed.mp hmem with ⟨a, b, hA, hB, _⟩
    exact hkill a b hA hB

theorem compareRuns_onesided_witness :
    itemsGet ([] : List RunItem) "1" = none ∧
    ("1" ∉ (compareRuns [RunItem.mk "1" true 5 none (s2l "ok")] []).regressions ∧
      "1" ∉ (compareRuns [RunItem.mk "1" true 5 none (s2l "ok")] []).improvements ∧
      "1" ∉ (compareRuns [RunItem.mk "1" true 5 none (s2l "ok")] []).errorsNew ∧
      "1" ∉ (compareRuns [RunItem.mk "1" true 5 none (s2l "ok")] []).errorsFixed) :=
  ⟨rfl, compareRuns_onesided _ _ "1" (Or.inr rfl)⟩

/-- C9: the retrieval hit checker returns true iff some element's
lightly-normalized text contains the lightly-normalized expected substring,
so its boolean outcome is invariant under permutation of the results; the
lighter normalizer keeps dashes and trailing punctuation that the aggressive
normalizer rewrites/strips. -/
theorem checkRetrievalHit_spec :
    (∀ (results : List RetrievalResult) (expected : Option JStr),
      checkRetrievalHit results expected = true ↔
        ∃ r ∈ results,
          jsIncludes (normalizeText (some (r.text.getD []))) (normalizeText expected) = true) ∧
    (∀ (l₁ l₂ : List RetrievalResult) (expected : Option JStr),
      l₁.Perm l₂ → checkRetrievalHit l₁ expected = checkRetrievalHit l₂ expected) ∧
    normalizeText (some (s2l "Done—OK.")) = s2l "done—ok." ∧
    normalizeAggressive (some (s2l "Done—OK.")) = s2l "done-ok" := by
  have hiff : ∀ (results : List RetrievalResult) (expected : Option JStr),
      checkRetrievalHit results expected = true ↔
        ∃ r ∈ results,
          jsIncludes (normalizeText (some (r.text.getD []))) (normalizeText expected) = true := by
    intro results expected
    simp only [checkRetrievalHit, List.any_eq_true]
  refine ⟨hiff, ?_, by decide, by decide⟩
  intro l₁ l₂ expected hp
  by_cases h : checkRetrievalHit l₁ expected = true
  · rcases (hiff l₁ expected).mp h with ⟨r, hr, hf⟩
    rw [h, eq_comm]
    exact (hiff l₂ expected).mpr ⟨r, hp.mem_iff.mp hr, hf⟩
  · rw [Bool.eq_false_iff.mpr h]
    rw [eq_comm, Bool.eq_false_iff]
    intro h2t
    rcases (hiff l₂ expected).mp h2t with ⟨r, hr, hf⟩
    exact h ((hiff l₁ expected).mpr ⟨r, hp.mem_iff.mpr hr, hf⟩)

theorem checkRetrievalHit_spec_witness :
    (([RetrievalResult.mk (some (s2l "alpha")), RetrievalResult.mk (some (s2l "the answer 42"))]).Perm
      [RetrievalResult.mk (some (s2l "the answer 42")), RetrievalResult.mk (some (s2l "alpha"))]) ∧
    checkRetrievalHit [RetrievalResult.mk (some (s2l "alpha")),
        RetrievalResult.mk (some (s2l "the answer 42"))] (some (s2l "answer 42")) =
      checkRetrievalHit [RetrievalResult.mk (some (s2l "the answer 42")),
        RetrievalResult.mk (some (s2l "alpha"))] (some (s2l "answer 42")) :=
  ⟨List.Perm.swap _ _ _, checkRetrievalHit_spec.2.1 _ _ _ (List.Perm.swap _ _ _)⟩

example : doubleOfFrac 1 100 = mkRat 5764607523034235 576460752303423488 := by decide
example : doubleOfFrac 1 3 = mkRat 6004799503160661 18014398509481984 := by decide
example : runAccuracy 1 2 = mkRat 1 2 := by decide

/-- C10 (counterexample): the stored accuracy is not the exact two-decimal
rounding of `passed/total`.  For `passed = 3, total = 200` exact half-up
rounding of the ratio gives `0.02`, but the double quotient lies just below
the `0.015` midpoint, so `toFixed(2)` picks `"0.01"` and the program archives
the double nearest `0.01`. -/
theorem accuracy_not_exact_decimal_rounding :
    round2Exact ((3 : ℚ) / 200) = 2 / 100 ∧
    doubleOfFrac 3 200 < (3 : ℚ) / 200 ∧
    runAccuracy 3 200 = doubleOfFrac 1 100 ∧
    runAccuracy 3 200 ≠ round2Exact ((3 : ℚ) / 200) := by
  have hre : round2Exact ((3 : ℚ) / 200) = 2 / 100 := by
    unfold round2Exact
    rw [show ((3 : ℚ) / 200 * 100 + 1 / 2) = ((2 : ℤ) : ℚ) from by push_cast; norm_num,
      Int.floor_intCast]
    norm_num
  refine ⟨hre, ?_, by decide, ?_⟩
  · rw [show (3 : ℚ) / 200 = mkRat 3 200 from by rw [Rat.mkRat_eq_div]; norm_num]
    decide
  · rw [hre, show (2 : ℚ) / 100 = mkRat 2 100 from by rw [Rat.mkRat_eq_div]; norm_num]
    decide

/-- C10 (amended): the archived accuracy is `Number((passed/total).toFixed(2))`
— two-decimal `toFixed` rounding applied to the IEEE-754 double quotient —
and `0` when `total = 0`; it genuinely differs from the exact ratio (⅓ stores
as the double nearest `0.33`), and the comparator's Δaccuracy is built from
the stored values via `??`, falling back to exact `passed/total` only when
the field is absent. -/
theorem accuracy_model :
    (∀ (m g : String) (total passed avg : ℕ), 0 < total →
      (mkSummary m g total passed avg).accuracy =
        some (jsToFixed2 (doubleOfFrac passed total))) ∧
    (∀ (m g : String) (passed avg : ℕ), (mkSummary m g 0 passed avg).accuracy = some 0) ∧
    runAccuracy 1 3 = doubleOfFrac 33 100 ∧
    runAccuracy 1 3 ≠ (1 : ℚ) / 3 ∧
    (∀ A B : RunSummary, dAcc A B = accForCompare B - accForCompare A) ∧
    (∀ (s : RunSummary) (q : ℚ), s.accuracy = some q → accForCompare s = q) ∧
    (∀ s : RunSummary, s.accuracy = none →
      accForCompare s = (s.passed : ℚ) / (s.total : ℚ)) := by
  refine ⟨?_, ?_, by decide, ?_, fun A B => rfl, ?_, ?_⟩
  · intro m g total passed avg ht
    unfold mkSummary runAccuracy
    rw [if_neg (Nat.pos_iff_ne_zero.mp ht)]
  · intro m g passed avg
    rfl
  · rw [show (1 : ℚ) / 3 = mkRat 1 3 from by rw [Rat.mkRat_eq_div]; norm_num]
    decide
  · intro s q h
    unfold accForCompare
    rw [h]
  · intro s h
    unfold accForCompare
    rw [h]

theorem accuracy_model_witness :
    0 < 4 ∧
    (mkSummary "llama" "ab12" 4 1 100).accuracy =
      some (jsToFixed2 (doubleOfFrac 1 4)) ∧
    (RunSummary.mk "m" "g" 10 5 none 7).accuracy = none ∧
    accForCompare (RunSummary.mk "m" "g" 10 5 none 7) =
      ((RunSummary.mk "m" "g" 10 5 none 7).passed : ℚ) /
        ((RunSummary.mk "m" "g" 10 5 none 7).total : ℚ) := by
  refine ⟨by norm_num, ?_, rfl, ?_⟩
  · exact accuracy_model.1 "llama" "ab12" 4 1 100 (by norm_num)
  · exact accuracy_model.2.2.2.2.2.2 _ rfl

/-- C4 (the intended validation, and what actually happens): `readGoldenJSON`
rejects a non-array top level and fails fast naming the offending row index
and missing field — but `main` never calls it: its real load path is a bare
`JSON.parse` whose rows run unvalidated, and a row with no `reference` even
passes `contains` trivially (`normalize(undefined) = ""` is a substring of
everything), so a partial run does occur. -/
theorem goldenValidation_dead_in_main :
    readGoldenJSON (.arr [badRow]) = .error "row 0 missing 'context'" ∧
    readGoldenJSON (.num 5) = .error "golden file must be a JSON array" ∧
    mainLoadTests (.arr [badRow]) = .ok [badRow] ∧
    objGet badRow "reference" = none ∧
    (∀ out : Option JStr, checkContains out none = true) := by
  refine ⟨rfl, rfl, rfl, rfl, ?_⟩
  intro out
  unfold checkContains
  rw [show normalizeAggressive none = [] from rfl]
  exact jsIncludes_nil _

/-- C5 (counterexample): a syntactically invalid pattern need not yield
`BAD_REGEX`: `")("` does not compile, but its tier-2 wrapping
`^(?:)()\s*[.,;:!?]?$` does, and on the empty output `checkRegex` returns
`{pass: true, error: null}`. -/
theorem checkRegex_invalid_pattern_can_pass :
    parseRegex (s2l ")(") = none ∧
    checkRegex (some []) (s2l ")(") = ⟨true, none⟩ ∧
    checkRegex (some []) (s2l ")(") ≠ ⟨false, some "BAD_REGEX"⟩ :=
  ⟨by decide, by decide, by decide⟩

/-- C5 (amended): `checkRegex` never raises (it is a total function); it
returns `{pass:false, error:"BAD_REGEX"}` whenever the regexes it actually
compiles are invalid — in particular whenever the pattern itself fails to
compile *and* its anchor-stripped exact-ish wrapping fails too, as happens
for `"(unclosed"` on every input.  (An invalid pattern whose wrapping is
valid, such as `")("`, can instead produce an ordinary verdict.) -/
theorem checkRegex_badRegex :
    (∀ (out : Option JStr) (pat : JStr),
      parseRegex pat = none →
      parseRegex (wrapExactish (stripAnchors pat)) = none →
      checkRegex out pat = ⟨false, some "BAD_REGEX"⟩) ∧
    (∀ out : Option JStr, checkRegex out (s2l "(unclosed") = ⟨false, some "BAD_REGEX"⟩) := by
  have H : ∀ (out : Option JStr) (pat : JStr),
      parseRegex pat = none →
      parseRegex (wrapExactish (stripAnchors pat)) = none →
      checkRegex out pat = ⟨false, some "BAD_REGEX"⟩ := by
    intro out pat h1 h2
    simp only [checkRegex, checkRegexFallback, h1, h2]
    split <;> rfl
  exact ⟨H, fun out => H out _ (by decide) (by decide)⟩

theorem checkRegex_badRegex_witness :
    parseRegex (s2l "(unclosed") = none ∧
    parseRegex (wrapExactish (stripAnchors (s2l "(unclosed"))) = none ∧
    checkRegex (some (s2l "It is 45.")) (s2l "(unclosed") = ⟨false, some "BAD_REGEX"⟩ :=
  ⟨by decide, by decide, checkRegex_badRegex.1 _ _ (by decide) (by decide)⟩

/-- C1: for every output and every pattern whose three compiled forms are
valid, `checkRegex` is the three-tier cascade with the first success winning:
tier 1 (the pattern as authored, only when it has `.*` wildcard edges or an
explicit `^`/`$`), then the exact-ish wrapper, then the tail-bounded wrapper,
all case-insensitively against the lightly-normalized output.  In particular
`"^45 degrees$"` against `"It is about 45 degrees."` is tier-1 eligible but
fails tiers 1 and 2 and passes via tier 3, while `".*45 degrees.*"` has
wildcard edges and passes via tier 1 directly. -/
theorem checkRegex_tiers :
    (∀ (out : Option JStr) (pat : JStr),
      (parseRegex pat).isSome = true →
      (parseRegex (wrapExactish (stripAnchors pat))).isSome = true →
      (parseRegex (wrapTailBounded (stripAnchors pat))).isSome = true →
      checkRegex out pat =
        ⟨(tierOneEligible pat &&
            tierOneMatch pat (normalizeForRegex (some (jsTrim (out.getD []))))) ||
          tierTwoMatch pat (normalizeForRegex (some (jsTrim (out.getD [])))) ||
          tierThreeMatch pat (normalizeForRegex (some (jsTrim (out.getD [])))), none⟩) ∧
    normalizeForRegex (some (jsTrim (s2l "It is about 45 degrees."))) =
      s2l "It is about 45 degrees." ∧
    (tierOneEligible (s2l "^45 degrees$") = true ∧
      tierOneMatch (s2l "^45 degrees$") (s2l "It is about 45 degrees.") = false ∧
      tierTwoMatch (s2l "^45 degrees$") (s2l "It is about 45 degrees.") = false ∧
      tierThreeMatch (s2l "^45 degrees$") (s2l "It is about 45 degrees.") = true ∧
      checkRegex (some (s2l "It is about 45 degrees.")) (s2l "^45 degrees$") = ⟨true, none⟩) ∧
    (hasWildcardEdges (s2l ".*45 degrees.*") = true ∧
      tierOneMatch (s2l ".*45 degrees.*") (s2l "It is about 45 degrees.") = true ∧
      checkRegex (some (s2l "It is about 45 degrees.")) (s2l ".*45 degrees.*") = ⟨true, none⟩) := by
  refine ⟨?_, by decide, ⟨by decide, by decide, by decide, by decide, by decide⟩,
    ⟨by decide, by decide, by decide⟩⟩
  intro out pat h1 h2 h3
  rcases ho1 : parseRegex pat with _ | r1
  · rw [ho1] at h1
    exact absurd h1 (by simp)
  rcases ho2 : parseRegex (wrapExactish (stripAnchors pat)) with _ | r2
  · rw [ho2] at h2
    exact absurd h2 (by simp)
  rcases ho3 : parseRegex (wrapTailBounded (stripAnchors pat)) with _ | r3
  · rw [ho3] at h3
    exact absurd h3 (by simp)
  simp only [checkRegex, checkRegexFallback, tierOneEligible, tierOneMatch, tierTwoMatch,
    tierThreeMatch, ho1, ho2, ho3]
  cases hWc : (hasWildcardEdges pat || hasAnchorChar pat) <;>
    cases hr1 : rtest true r1 (normalizeForRegex (some (jsTrim (out.getD [])))) <;>
      cases hr2 : rtest true r2 (normalizeForRegex (some (jsTrim (out.getD [])))) <;>
        cases hr3 : rtest true r3 (normalizeForRegex (some (jsTrim (out.getD [])))) <;>
          simp [hWc, hr1, hr2, hr3]

theorem checkRegex_tiers_witness :
    (parseRegex (s2l "^45 degrees$")).isSome = true ∧
    (parseRegex (wrapExactish (stripAnchors (s2l "^45 degrees$")))).isSome = true ∧
    (parseRegex (wrapTailBounded (stripAnchors (s2l "^45 degrees$")))).isSome = true ∧
    checkRegex (some (s2l "It is about 45 degrees.")) (s2l "^45 degrees$") =
      ⟨(tierOneEligible (s2l "^45 degrees$") &&
          tierOneMatch (s2l "^45 degrees$")
            (normalizeForRegex (some (jsTrim ((some (s2l "It is about 45 degrees.")).getD []))))) ||
        tierTwoMatch (s2l "^45 degrees$")
          (normalizeForRegex (some (jsTrim ((some (s2l "It is about 45 degrees.")).getD [])))) ||
        tierThreeMatch (s2l "^45 degrees$")
          (normalizeForRegex (some (jsTrim ((some (s2l "It is about 45 degrees.")).getD [])))),
        none⟩ :=
  ⟨by decide, by decide, by decide,
    checkRegex_tiers.1 (some (s2l "It is about 45 degrees.")) (s2l "^45 degrees$")
      (by decide) (by decide) (by decide)⟩

end RagEval
